import Mathlib

/-!
# Verification of the layered sampling/caching subsystem (src/cached_llm.py)

This file gives a shallow embedding, in Lean 4, of the core of the
repository's cached-LLM stack and proves the specification's claims about
it.  The embedding follows the Python source closely:

* math.ceil division on naturals is `ceilNat`;
* `_BaseBufferedModel._BufferedIterator` becomes the state machine
  `BufState` with step function `bufNext`;
* `_BaseBatchedCache._SharedCacheIterator` becomes the state machine
  `CacheSys` over an abstract storage `Backend` (mirroring the abstract
  methods `_store`/`_load`), with step function `cacheStep`; the in-memory
  `Repeatable` storage is `memBackend`, the on-disk `Persistent` storage is
  `diskBackend` over a model `Dir` of one fingerprint directory;
* `Independent` (the independence isolator) becomes `indSample`;
* `prompt_id` is implemented in full: UTF-8 encoding (`utf8Bytes`) followed
  by SHA-256 (`sha256hex`), exactly as `hashlib.sha256(...).hexdigest()`;
* `Persistent._prompt_dir` temperature trimming becomes `trimTemp`, with the
  temperature represented by its value in thousandths (the Python code
  renders the float with three decimal places, so only thousandths matter).

All models fix a single prompt/fingerprint where the source keys its state
by `prompt_id` (entries for distinct fingerprints never interact in the
source), except for the isolator model which keeps the fingerprint-keyed
map explicit.
-/

namespace Mnimi

/-- Ceiling division on naturals, the value of Python's
math.ceil(a / b) for positive b. -/
def ceilNat (a b : Nat) : Nat := (a + b - 1) / b

/-! ## The batched query amortizer: _BaseBufferedModel._BufferedIterator -/

/-- State of one _BufferedIterator: the deque buffer, the computed
batch size, the number of completions already consumed from the underlying
collaborator stream, and the count of _query calls issued. -/
structure BufState where
  buffer : List String
  batchSize : Nat
  upstreamPos : Nat
  queries : Nat
  deriving Repr, DecidableEq

/-- The batch size computed by set_batch_size(n) for a model with
max_batch = maxBatch: batches = max(1, ceil(n / max_batch));
batch_size = ceil(n / batches). -/
def sbs (n maxBatch : Nat) : Nat := ceilNat n (max 1 (ceilNat n maxBatch))

/-- The state of the iterator returned by _BaseBufferedModel.sample(prompt,
batch): empty buffer, batch size set by set_batch_size(batch), underlying
collaborator stream untouched. -/
def initBuf (maxBatch batch : Nat) : BufState :=
  { buffer := [], batchSize := sbs batch maxBatch, upstreamPos := 0, queries := 0 }

/-- One __next__ call on a _BufferedIterator.  The collaborator
(contract of section 6 of the spec) returns exactly n fresh completions per
_query call, modelled by the fixed stream qstream: the j-th completion
ever produced is qstream j.  If the buffer is empty a query of
batchSize completions is issued and the buffer refilled; then the leftmost
buffered value is popped.  Popping an empty deque (only possible when
batchSize = 0) raises in Python; that outcome is none. -/
def bufNext (qstream : Nat → String) (s : BufState) : BufState × Option String :=
  match s.buffer with
  | v :: rest => ({ s with buffer := rest }, some v)
  | [] =>
    match (List.range s.batchSize).map (fun j => qstream (s.upstreamPos + j)) with
    | [] => ({ s with queries := s.queries + 1 }, none)
    | v :: rest =>
      ({ buffer := rest, batchSize := s.batchSize,
         upstreamPos := s.upstreamPos + s.batchSize, queries := s.queries + 1 }, some v)

/-- n successive __next__ calls on a _BufferedIterator, collecting the
returned values in order. -/
def bufPullN (qstream : Nat → String) : Nat → BufState → List (Option String) × BufState
  | 0, s => ([], s)
  | n + 1, s =>
    let (vs, s') := bufPullN qstream n s
    let (s'', v) := bufNext qstream s'
    (vs ++ [v], s'')

/-! ## Storage backends: the abstract _store/_load pair of _BaseBatchedCache -/

/-- A storage backend for one fingerprint, mirroring the abstract methods
_store(pid, response) and _load(pid) of _BaseBatchedCache. -/
structure Backend (σ : Type) where
  store : σ → String → σ
  load : σ → List String

/-- The Repeatable backend: a process-lifetime list per fingerprint;
_store appends, _load returns the list. -/
def memBackend : Backend (List String) :=
  { store := fun s v => s ++ [v], load := fun s => s }

/-- A fingerprint directory of the Persistent cache: the numbered .md files
it holds, as (integer filename stem, file content) pairs, in arbitrary
enumeration order (the order a directory listing happens to produce). -/
abbrev Dir : Type := List (Nat × String)

/-- Insert a file into a stem-sorted listing (one step of sorting by
integer stem value). -/
def insertByStem (p : Nat × String) : List (Nat × String) → List (Nat × String)
  | [] => [p]
  | q :: qs => if p.1 < q.1 then p :: q :: qs else q :: insertByStem p qs

/-- Persistent._list_numbered_files: the directory's .md files sorted by
the integer value of the filename stem. -/
def list_numbered_files : Dir → List (Nat × String)
  | [] => []
  | p :: ps => insertByStem p (list_numbered_files ps)

/-- Persistent._store for one fingerprint: the next index is the count of
existing numbered files; a new file with that stem is written. -/
def storeDir (d : Dir) (v : String) : Dir :=
  d ++ [((list_numbered_files d).length, v)]

/-- Persistent._load for one fingerprint: contents of the numbered files in
integer-stem order. -/
def loadDir (d : Dir) : List String :=
  (list_numbered_files d).map Prod.snd

/-- The Persistent backend over one fingerprint directory. -/
def diskBackend : Backend Dir :=
  { store := storeDir, load := loadDir }

/-! ## The shared cache iterator: _BaseBatchedCache._SharedCacheIterator -/

/-- Operations a caller can perform on one cache instance for one
fingerprint: obtain a new cursor (a sample call), or pull (__next__) on the
c-th cursor obtained so far. -/
inductive CacheOp where
  | newCursor : CacheOp
  | pull : Nat → CacheOp
  deriving Repr, DecidableEq

/-- Observable outcome of one operation: cursor creation, a value returned
by cursor c whose current_index was i, a ReplicationCacheMiss, the inner
fresh fetch raising, or an out-of-range cursor number. -/
inductive CacheObs where
  | created : CacheObs
  | returned : Nat → Nat → String → CacheObs
  | cacheMiss : Nat → Nat → CacheObs
  | fetchError : Nat → Nat → CacheObs
  | invalid : CacheObs
  deriving Repr, DecidableEq

/-- State of one cache instance restricted to one fingerprint: the backing
store, the number of next() calls made so far on the shared inner
(Independence-isolated) capability, and the current_index of every cursor
handed out. -/
structure CacheSys (σ : Type) where
  backing : σ
  attempts : Nat
  cursors : List Nat
  failOnMiss : Bool

/-- A cache instance as freshly constructed: given backing, no cursors, no
inner fetches yet. -/
def mkCache {σ : Type} (backing : σ) (failOnMiss : Bool) : CacheSys σ :=
  { backing := backing, attempts := 0, cursors := [], failOnMiss := failOnMiss }

/-- One step of the cache, following _SharedCacheIterator.__next__ line by
line.  ostream gives the outcome of each successive next() call on the
shared inner capability (none models the inner fetch raising before
producing a value).  sample(prompt, batch) appends a cursor at position 0.
A pull first reloads the store; if it has more than current_index entries
the entry at current_index is replayed and the cursor advances; otherwise
in replication mode a ReplicationCacheMiss is raised; otherwise one fresh
value is fetched from the inner capability, stored, and returned with the
cursor advanced.  On a raising fetch nothing is stored and no cursor moves. -/
def cacheStep {σ : Type} (B : Backend σ) (ostream : Nat → Option String)
    (s : CacheSys σ) : CacheOp → CacheSys σ × CacheObs
  | .newCursor => ({ s with cursors := s.cursors ++ [0] }, .created)
  | .pull c =>
    if c < s.cursors.length then
      let i := s.cursors.getD c 0
      let cache := B.load s.backing
      if i < cache.length then
        ({ s with cursors := s.cursors.set c (i + 1) }, .returned c i (cache.getD i ""))
      else if s.failOnMiss then
        (s, .cacheMiss c i)
      else
        match ostream s.attempts with
        | none => ({ s with attempts := s.attempts + 1 }, .fetchError c i)
        | some v =>
          ({ backing := B.store s.backing v, attempts := s.attempts + 1,
             cursors := s.cursors.set c (i + 1), failOnMiss := s.failOnMiss },
           .returned c i v)
    else (s, .invalid)

/-- Run a list of operations, collecting the observations in order. -/
def cacheRun {σ : Type} (B : Backend σ) (ostream : Nat → Option String)
    (s : CacheSys σ) : List CacheOp → CacheSys σ × List CacheObs
  | [] => (s, [])
  | op :: ops =>
    let (s', o) := cacheStep B ostream s op
    let (s'', os) := cacheRun B ostream s' ops
    (s'', o :: os)

/-- The logical sample sequence determined by an initial store content and
the fixed sequence of fresh fetches: position i replays the initial store
when possible and otherwise takes fresh fetch number i - length. -/
def seqAt (init : List String) (vals : Nat → String) (i : Nat) : String :=
  if i < init.length then init.getD i "" else vals (i - init.length)

/-- The largest element of a list of naturals (0 for the empty list).  For
a list of cursor positions this is the number of distinct sequence
positions the cursors have ever requested. -/
def maxList : List Nat → Nat
  | [] => 0
  | x :: xs => max x (maxList xs)

/-! ## The independence isolator: Independent -/

/-- The runtime class of the capability an Independent instance wraps, as
far as the isinstance tests in Independent.sample distinguish them:
a nested Independent, a transport-wrapping type (OpenAICompatibleHTTPModel
or one of its subclasses XMCP, CloseAI, FireworksAI, AI302), or anything
else. -/
inductive InnerKind where
  | isolator : InnerKind
  | transport : InnerKind
  | plain : InnerKind
  deriving Repr, DecidableEq

/-- State of one Independent instance: the _inner_iters mapping from
fingerprint to the remembered shared cursor, each cursor identified by its
creation number and carrying its current batch hint; created counts how
many cursors the wrapped capability has produced for it. -/
structure IndState where
  created : Nat
  iters : List (String × Nat × Nat)
  deriving Repr, DecidableEq

/-- Look up the remembered cursor for a fingerprint. -/
def lookupIter (pid : String) : List (String × Nat × Nat) → Option (Nat × Nat)
  | [] => none
  | (q, id, b) :: rest => if q = pid then some (id, b) else lookupIter pid rest

/-- Re-tune the batch hint of the remembered cursor for a fingerprint. -/
def retuneIter (pid : String) (b : Nat) :
    List (String × Nat × Nat) → List (String × Nat × Nat)
  | [] => []
  | (q, id, b0) :: rest =>
    if q = pid then (q, id, b) :: rest else (q, id, b0) :: retuneIter pid b rest

/-- What Independent.sample hands back: either the call was passed straight
through to the wrapped capability's sample, or a shared cursor (by identity
and current batch hint). -/
inductive IndOut where
  | passed : String → Nat → IndOut
  | shared : Nat → Nat → IndOut
  deriving Repr, DecidableEq

/-- Independent.sample for the prompt with fingerprint pid and batch hint
b.  If the wrapped capability is itself an Independent or any
transport-wrapping type the call is passed straight through; otherwise the
remembered cursor for pid is returned (created on first request) after
set_batch_size(b). -/
def indSample (k : InnerKind) (pid : String) (b : Nat) (s : IndState) :
    IndState × IndOut :=
  match k with
  | .isolator => (s, .passed pid b)
  | .transport => (s, .passed pid b)
  | .plain =>
    match lookupIter pid s.iters with
    | none =>
      ({ created := s.created + 1, iters := s.iters ++ [(pid, s.created, b)] },
       .shared s.created b)
    | some (id, _) =>
      ({ s with iters := retuneIter pid b s.iters }, .shared id b)

/-- A sequence of Independent.sample calls, final state only. -/
def indRun (k : InnerKind) : List (String × Nat) → IndState → IndState
  | [], s => s
  | (pid, b) :: calls, s => indRun k calls (indSample k pid b s).1

/-! ## A cache over a transport-backed model -/

/-- State of a Persistent or Repeatable cache wrapping a transport-backed
model (an OpenAICompatibleHTTPModel), restricted to one fingerprint and one
cursor: because Independent passes transport-wrapping types straight
through, every fresh fetch builds a brand-new _BufferedIterator, issues one
_query of the computed batch size against the shared collaborator stream,
returns the first completion and discards the iterator (and with it the
rest of the buffer). -/
structure TCState where
  store : List String
  idx : Nat
  upos : Nat
  deriving Repr, DecidableEq

/-- One pull on the single cursor of a cache over a transport-backed model
with max_batch = maxBatch, the cursor having batch hint b. -/
def tcPull (qstream : Nat → String) (maxBatch b : Nat) (s : TCState) :
    TCState × String :=
  if s.idx < s.store.length then
    ({ s with idx := s.idx + 1 }, s.store.getD s.idx "")
  else
    let v := qstream s.upos
    ({ store := s.store ++ [v], idx := s.idx + 1, upos := s.upos + sbs b maxBatch }, v)

/-- n pulls on the single cursor of a cache over a transport-backed model,
collecting the returned values. -/
def tcPullN (qstream : Nat → String) (maxBatch b : Nat) :
    Nat → TCState → List String × TCState
  | 0, s => ([], s)
  | n + 1, s =>
    let (s', v) := tcPull qstream maxBatch b s
    let (vs, s'') := tcPullN qstream maxBatch b n s'
    (v :: vs, s'')

/-! ## Nested in-memory caches: Repeatable wrapping Repeatable -/

/-- The runtime class of a Python object in the stack, as far as the
isinstance tests in Repeatable.sample distinguish them. -/
inductive PyClass where
  | independentC : PyClass
  | repeatableC : PyClass
  | persistentC : PyClass
  | transportC : PyClass
  | otherC : PyClass
  deriving Repr, DecidableEq

/-- The runtime class of the _inner attribute of any _BaseBatchedCache:
the constructor always sets self._inner = Independent(inner), whatever the
class of the wrapped inner model. -/
def innerFieldClass (_wrapped : PyClass) : PyClass := .independentC

/-- The guard of Repeatable.sample: delegate iff self._inner is an
instance of Repeatable or of Persistent. -/
def repeatableDelegationGuard (c : PyClass) : Bool :=
  c = PyClass.repeatableC || c = PyClass.persistentC

/-- State of Repeatable(Repeatable(base)) restricted to one fingerprint,
with base a model whose shared iterator yields the fixed stream vals:
outer/inner are the two _cache entries, outerCursors the positions of the
cursors handed out by the outer cache, innerIdx the current_index of the
single shared inner-cache cursor the outer cache's Independent remembers,
and baseFetched the number of next() calls consumed from the base model's
shared iterator. -/
structure NestState where
  outer : List String
  outerCursors : List Nat
  inner : List String
  innerIdx : Nat
  baseFetched : Nat
  deriving Repr, DecidableEq

/-- The freshly constructed nested cache pair. -/
def initNest : NestState :=
  { outer := [], outerCursors := [], inner := [], innerIdx := 0, baseFetched := 0 }

/-- One operation on the outer cache of Repeatable(Repeatable(base)).  Since
the delegation guard of Repeatable.sample tests the class of self._inner
(always Independent), sampling never delegates: the outer cache runs the
ordinary _SharedCacheIterator logic, and a fresh fetch pulls the single
shared cursor of the inner cache, which itself replays or fetches from the
base model's shared iterator. -/
def nestStep (vals : Nat → String) (s : NestState) : CacheOp → NestState × CacheObs
  | .newCursor => ({ s with outerCursors := s.outerCursors ++ [0] }, .created)
  | .pull c =>
    if c < s.outerCursors.length then
      let i := s.outerCursors.getD c 0
      if i < s.outer.length then
        ({ s with outerCursors := s.outerCursors.set c (i + 1) },
         .returned c i (s.outer.getD i ""))
      else
        let j := s.innerIdx
        if j < s.inner.length then
          let v := s.inner.getD j ""
          ({ outer := s.outer ++ [v], outerCursors := s.outerCursors.set c (i + 1),
             inner := s.inner, innerIdx := j + 1, baseFetched := s.baseFetched },
           .returned c i v)
        else
          let v := vals s.baseFetched
          ({ outer := s.outer ++ [v], outerCursors := s.outerCursors.set c (i + 1),
             inner := s.inner ++ [v], innerIdx := j + 1,
             baseFetched := s.baseFetched + 1 },
           .returned c i v)
    else (s, .invalid)

/-- Run a list of operations on the nested cache pair. -/
def nestRun (vals : Nat → String) (s : NestState) :
    List CacheOp → NestState × List CacheObs
  | [] => (s, [])
  | op :: ops =>
    let (s', o) := nestStep vals s op
    let (s'', os) := nestRun vals s' ops
    (s'', o :: os)

/-! ## prompt_id: hex SHA-256 of the UTF-8 encoded prompt -/

/-- Truncate to a 32-bit word. -/
def u32 (n : Nat) : Nat := n % 4294967296

/-- Right rotation of a 32-bit word by k. -/
def rotr (k n : Nat) : Nat := u32 (n / 2 ^ k + n % 2 ^ k * 2 ^ (32 - k))

/-- Logical right shift of a 32-bit word by k. -/
def shr (k n : Nat) : Nat := n / 2 ^ k

/-- SHA-256 Ch function. -/
def shaCh (x y z : Nat) : Nat := Nat.xor (Nat.land x y) (Nat.land (Nat.xor x 4294967295) z)

/-- SHA-256 Maj function. -/
def shaMaj (x y z : Nat) : Nat :=
  Nat.xor (Nat.xor (Nat.land x y) (Nat.land x z)) (Nat.land y z)

/-- SHA-256 Σ0. -/
def bigSigma0 (x : Nat) : Nat := Nat.xor (Nat.xor (rotr 2 x) (rotr 13 x)) (rotr 22 x)

/-- SHA-256 Σ1. -/
def bigSigma1 (x : Nat) : Nat := Nat.xor (Nat.xor (rotr 6 x) (rotr 11 x)) (rotr 25 x)

/-- SHA-256 σ0. -/
def smallSigma0 (x : Nat) : Nat := Nat.xor (Nat.xor (rotr 7 x) (rotr 18 x)) (shr 3 x)

/-- SHA-256 σ1. -/
def smallSigma1 (x : Nat) : Nat := Nat.xor (Nat.xor (rotr 17 x) (rotr 19 x)) (shr 10 x)

/-- The SHA-256 round constants (FIPS 180-4, written in decimal). -/
def shaK : List Nat :=
  [1116352408, 1899447441, 3049323471, 3921009573, 961987163, 1508970993,
   2453635748, 2870763221, 3624381080, 310598401, 607225278, 1426881987,
   1925078388, 2162078206, 2614888103, 3248222580, 3835390401, 4022224774,
   264347078, 604807628, 770255983, 1249150122, 1555081692, 1996064986,
   2554220882, 2821834349, 2952996808, 3210313671, 3336571891, 3584528711,
   113926993, 338241895, 666307205, 773529912, 1294757372, 1396182291,
   1695183700, 1986661051, 2177026350, 2456956037, 2730485921, 2820302411,
   3259730800, 3345764771, 3516065817, 3600352804, 4094571909, 275423344,
   430227734, 506948616, 659060556, 883997877, 958139571, 1322822218,
   1537002063, 1747873779, 1955562222, 2024104815, 2227730452, 2361852424,
   2428436474, 2756734187, 3204031479, 3329325298]

/-- The SHA-256 initial hash value (FIPS 180-4, written in decimal). -/
def shaH0 : List Nat :=
  [1779033703, 3144134277, 1013904242, 2773480762,
   1359893119, 2600822924, 528734635, 1541459225]

/-- One message-schedule extension step: append word
σ1(w[t-2]) + w[t-7] + σ0(w[t-15]) + w[t-16]. -/
def wStep (ws : List Nat) : List Nat :=
  ws ++ [u32 (smallSigma1 (ws.getD (ws.length - 2) 0) + ws.getD (ws.length - 7) 0 +
              smallSigma0 (ws.getD (ws.length - 15) 0) + ws.getD (ws.length - 16) 0)]

/-- The 64-word message schedule of one block. -/
def buildW (block : List Nat) : List Nat :=
  (List.range 48).foldl (fun ws _ => wStep ws) block

/-- One SHA-256 round on the working variables [a,b,c,d,e,f,g,h]. -/
def shaRound (st : List Nat) (kw : Nat × Nat) : List Nat :=
  let a := st.getD 0 0
  let b := st.getD 1 0
  let c := st.getD 2 0
  let d := st.getD 3 0
  let e := st.getD 4 0
  let f := st.getD 5 0
  let g := st.getD 6 0
  let h := st.getD 7 0
  let t1 := u32 (h + bigSigma1 e + shaCh e f g + kw.1 + kw.2)
  let t2 := u32 (bigSigma0 a + shaMaj a b c)
  [u32 (t1 + t2), a, b, c, u32 (d + t1), e, f, g]

/-- Compress one 16-word block into the running hash. -/
def compressBlock (h : List Nat) (block : List Nat) : List Nat :=
  let w := buildW block
  let st := (shaK.zip w).foldl shaRound h
  List.zipWith (fun x y => u32 (x + y)) h st

/-- SHA-256 padding of a byte string: append 0x80, zero bytes to 56 mod 64,
then the bit length as eight big-endian bytes. -/
def padMsg (msg : List Nat) : List Nat :=
  let L := msg.length
  let zeros := (120 - (L + 1) % 64) % 64
  msg ++ [128] ++ List.replicate zeros 0 ++
    (List.range 8).map (fun i => 8 * L / 2 ^ (8 * (7 - i)) % 256)

/-- Big-endian grouping of bytes into 32-bit words. -/
def toWords : List Nat → List Nat
  | b0 :: b1 :: b2 :: b3 :: rest =>
    (b0 * 16777216 + b1 * 65536 + b2 * 256 + b3) :: toWords rest
  | _ => []

/-- Split a word list into 16-word blocks (fuel-driven). -/
def toBlocksGo : Nat → List Nat → List (List Nat)
  | 0, _ => []
  | _, [] => []
  | fuel + 1, ws => ws.take 16 :: toBlocksGo fuel (ws.drop 16)

/-- Split a word list into 16-word blocks. -/
def toBlocks (ws : List Nat) : List (List Nat) := toBlocksGo ws.length ws

/-- The SHA-256 digest of a byte string, as eight 32-bit words. -/
def sha256Words (msg : List Nat) : List Nat :=
  (toBlocks (toWords (padMsg msg))).foldl compressBlock shaH0

/-- A lowercase hexadecimal digit. -/
def hexChar (d : Nat) : Char := "0123456789abcdef".data.getD d '0'

/-- A 32-bit word as eight lowercase hexadecimal digits. -/
def toHex8 (n : Nat) : String :=
  String.mk ((List.range 8).map (fun i => hexChar (n / 16 ^ (7 - i) % 16)))

/-- The lowercase-hex SHA-256 digest of a byte string. -/
def sha256hex (msg : List Nat) : String :=
  String.join ((sha256Words msg).map toHex8)

/-- UTF-8 encoding of one character. -/
def utf8Encode (c : Char) : List Nat :=
  let n := c.toNat
  if n < 128 then [n]
  else if n < 2048 then [192 + n / 64, 128 + n % 64]
  else if n < 65536 then [224 + n / 4096, 128 + n / 64 % 64, 128 + n % 64]
  else [240 + n / 262144, 128 + n / 4096 % 64, 128 + n / 64 % 64, 128 + n % 64]

/-- UTF-8 encoding of a string, as prompt.encode("utf-8"). -/
def utf8Bytes (s : String) : List Nat :=
  (s.data.map utf8Encode).flatten

/-- prompt_id: hashlib.sha256(prompt.encode("utf-8")).hexdigest(). -/
def prompt_id (prompt : String) : String :=
  sha256hex (utf8Bytes prompt)

/-! ## Persistent._prompt_dir: the partition directory -/

/-- Strip every trailing occurrence of a character, Python's
str.rstrip with a one-character argument. -/
def rstripChar (c : Char) (s : String) : String :=
  String.mk ((s.data.reverse.dropWhile (fun x => x = c)).reverse)

/-- The three-digit zero-padded decimal rendering of a number below 1000. -/
def pad3 (k : Nat) : String :=
  if k < 10 then "00" ++ toString k
  else if k < 100 then "0" ++ toString k
  else toString k

/-- The rendering of the temperature with three decimal places, where the
temperature is given in thousandths: the Python source renders the float
with three decimal places, so only the rounded thousandths value matters. -/
def fmt3 (m : Nat) : String :=
  toString (m / 1000) ++ "." ++ pad3 (m % 1000)

/-- The trimmed temperature of Persistent._prompt_dir:
three-decimal rendering, then trailing zeros stripped, then a trailing
decimal point stripped. -/
def trimTemp (m : Nat) : String :=
  rstripChar '.' (rstripChar '0' (fmt3 m))

/-- Persistent._prompt_dir: cache_root / (alias + underscore + trimmed
temperature) / fingerprint, with pathlib's / rendered as a slash. -/
def promptDirStr (root aliasName : String) (m : Nat) (pid : String) : String :=
  root ++ "/" ++ (aliasName ++ "_" ++ trimTemp m) ++ "/" ++ pid

/-- Lexicographic (code-point) comparison of character lists, the order
Python string comparison uses. -/
def charListLt : List Char → List Char → Bool
  | [], [] => false
  | [], _ :: _ => true
  | _ :: _, [] => false
  | c :: cs, d :: ds =>
    if c.toNat < d.toNat then true
    else if d.toNat < c.toNat then false
    else charListLt cs ds

/-- Lexicographic comparison of two stems by their decimal renderings. -/
def stemLexLt (a b : Nat) : Bool :=
  charListLt (Nat.repr a).data (Nat.repr b).data

/-- Lexicographic insertion of a file by the decimal rendering of its stem
(what sorting by filename string, rather than by integer value, would do). -/
def insertByStemLex (p : Nat × String) : List (Nat × String) → List (Nat × String)
  | [] => [p]
  | q :: qs =>
    if stemLexLt p.1 q.1 then p :: q :: qs else q :: insertByStemLex p qs

/-- The directory's files sorted by decimal stem string (lexical order),
the order the claims contrast with integer order. -/
def lexSortedFiles : Dir → List (Nat × String)
  | [] => []
  | p :: ps => insertByStemLex p (lexSortedFiles ps)

/-- Replay contents in lexical filename order (for contrast with loadDir). -/
def lexLoadDir (d : Dir) : List String :=
  (lexSortedFiles d).map Prod.snd

/-! ## Invariants and concrete demonstration data -/

/-- The on-disk layout invariant restricted to stem values: every stem is
below the file count (true in particular when the stems are exactly the
range 0..k-1 demanded by the layout). -/
def diskInv (d : Dir) : Prop := ∀ p ∈ d, p.1 < d.length

/-- The inductive invariant of a running cache instance relative to the
initial store content L0 and the fixed sequence vals of fresh-fetch
values: the backend invariant holds, the store holds L0 followed by the
fetches made so far, no cursor is ahead of the store, and the fetch count
never exceeds the furthest position any cursor has reached. -/
def CacheInv {σ : Type} (B : Backend σ) (inv : σ → Prop) (vals : Nat → String)
    (L0 : List String) (s : CacheSys σ) : Prop :=
  inv s.backing ∧
  B.load s.backing = L0 ++ (List.range s.attempts).map vals ∧
  (∀ i ∈ s.cursors, i ≤ (B.load s.backing).length) ∧
  s.attempts ≤ maxList s.cursors

/-- The fingerprint directory left behind after writing n completions for
one prompt through a Persistent cache over an initially empty root (one
sample call, then n pulls). -/
def dirAfterWrites (vals : Nat → String) (n : Nat) : Dir :=
  ((cacheRun diskBackend (fun k => some (vals k)) (mkCache ([] : Dir) false)
    (CacheOp.newCursor :: List.replicate n (CacheOp.pull 0))).1).backing

/-- An 11-file fingerprint directory (stems 0..10) in a scrambled
enumeration order, to contrast integer-stem replay order with lexical
filename order. -/
def scrambledDir : Dir :=
  [(10, "v10"), (2, "v2"), (0, "v0"), (8, "v8"), (1, "v1"), (7, "v7"),
   (3, "v3"), (9, "v9"), (5, "v5"), (4, "v4"), (6, "v6")]

/-! ## Helper lemmas: ceiling division -/

theorem ceilNat_le_iff {a b c : Nat} (hb : 1 ≤ b) : ceilNat a b ≤ c ↔ a ≤ c * b := by
  unfold ceilNat
  rw [Nat.div_le_iff_le_mul_add_pred hb, Nat.mul_comm b c]
  generalize c * b = t
  omega

theorem le_mul_ceilNat {a b : Nat} (hb : 1 ≤ b) : a ≤ ceilNat a b * b :=
  (ceilNat_le_iff hb).1 (Nat.le_refl _)

theorem ceilNat_pos {a b : Nat} (hb : 1 ≤ b) (ha : 1 ≤ a) : 1 ≤ ceilNat a b := by
  by_contra h
  have h0 : ceilNat a b ≤ 0 := by omega
  have h1 := (ceilNat_le_iff hb).1 h0
  omega

theorem ceilNat_mono_left {a a' : Nat} (b : Nat) (h : a ≤ a') :
    ceilNat a b ≤ ceilNat a' b := by
  unfold ceilNat
  exact Nat.div_le_div_right (by omega)

theorem ceilNat_succ_of_lt {j b : Nat} (hb : 1 ≤ b) (h : j < ceilNat j b * b) :
    ceilNat (j + 1) b = ceilNat j b :=
  Nat.le_antisymm ((ceilNat_le_iff hb).2 h) (ceilNat_mono_left b (Nat.le_succ j))

theorem ceilNat_succ_of_eq {j b : Nat} (hb : 1 ≤ b) (h : j = ceilNat j b * b) :
    ceilNat (j + 1) b = ceilNat j b + 1 := by
  apply Nat.le_antisymm
  · apply (ceilNat_le_iff hb).2
    rw [Nat.succ_mul, ← h]
    omega
  · by_contra hc
    have h2 : ceilNat (j + 1) b ≤ ceilNat j b := by omega
    have h3 := (ceilNat_le_iff hb).1 h2
    rw [← h] at h3
    omega

theorem sbs_pos {M K : Nat} (hM : 1 ≤ M) (hK : 1 ≤ K) : 1 ≤ sbs K M := by
  unfold sbs
  have hB : 1 ≤ ceilNat K M := ceilNat_pos hM hK
  rw [Nat.max_eq_right hB]
  exact ceilNat_pos hB hK

theorem sbs_le {M K : Nat} (hM : 1 ≤ M) (hK : 1 ≤ K) : sbs K M ≤ M := by
  unfold sbs
  have hB : 1 ≤ ceilNat K M := ceilNat_pos hM hK
  rw [Nat.max_eq_right hB]
  apply (ceilNat_le_iff hB).2
  rw [Nat.mul_comm]
  exact le_mul_ceilNat hM

theorem ceilNat_sbs {M K : Nat} (hM : 1 ≤ M) (hK : 1 ≤ K) :
    ceilNat K (sbs K M) = ceilNat K M := by
  have hB : 1 ≤ ceilNat K M := ceilNat_pos hM hK
  have hs1 : 1 ≤ sbs K M := sbs_pos hM hK
  apply Nat.le_antisymm
  · apply (ceilNat_le_iff hs1).2
    have : K ≤ ceilNat K (max 1 (ceilNat K M)) * max 1 (ceilNat K M) :=
      le_mul_ceilNat (le_trans (Nat.le_refl 1) (Nat.le_max_left 1 _))
    rw [Nat.max_eq_right hB] at this
    rw [Nat.mul_comm]
    unfold sbs
    rw [Nat.max_eq_right hB]
    exact (Nat.mul_comm _ _ ▸ this)
  · by_contra hc
    have h2 : ceilNat K (sbs K M) ≤ ceilNat K M - 1 := by omega
    have h3 := (ceilNat_le_iff hs1).1 h2
    have h5 : (ceilNat K M - 1) * sbs K M ≤ (ceilNat K M - 1) * M :=
      Nat.mul_le_mul_left _ (sbs_le hM hK)
    have h6 : K ≤ (ceilNat K M - 1) * M := Nat.le_trans h3 h5
    have h7 := (ceilNat_le_iff hM).2 h6
    omega

/-! ## Helper lemmas: list access -/

theorem getD_append_left {α : Type} (l l' : List α) (d : α) (n : Nat)
    (h : n < l.length) : (l ++ l').getD n d = l.getD n d :=
  List.getD_append l l' d n h

theorem getD_append_right {α : Type} (l l' : List α) (d : α) (j : Nat) :
    (l ++ l').getD (l.length + j) d = l'.getD j d := by
  simp [List.getD_eq_getElem?_getD, List.getElem?_append_right]

theorem getD_map_range {α : Type} (f : Nat → α) {n j : Nat} (d : α) (h : j < n) :
    ((List.range n).map f).getD j d = f j := by
  simp [List.getD_eq_getElem?_getD, List.getElem?_map, List.getElem?_range h]

theorem le_maxList_of_mem {x : Nat} : ∀ {l : List Nat}, x ∈ l → x ≤ maxList l := by
  intro l
  induction l with
  | nil => intro h; cases h
  | cons y ys ih =>
    intro h
    rcases List.mem_cons.1 h with h | h
    · subst h; exact Nat.le_max_left _ _
    · exact Nat.le_trans (ih h) (Nat.le_max_right _ _)

theorem maxList_le_maxList_append (l l' : List Nat) :
    maxList l ≤ maxList (l ++ l') := by
  induction l with
  | nil => exact Nat.zero_le _
  | cons y ys ih => simpa [maxList] using max_le_max (Nat.le_refl y) ih

theorem maxList_le_maxList_set {l : List Nat} {c v : Nat}
    (h : l.getD c 0 ≤ v) : maxList l ≤ maxList (l.set c v) := by
  induction l generalizing c with
  | nil => simp
  | cons y ys ih =>
    cases c with
    | zero =>
      simp only [List.getD, List.get?] at h
      simpa [maxList, List.set] using max_le_max h (Nat.le_refl (maxList ys))
    | succ c' =>
      have h' : ys.getD c' 0 ≤ v := h
      simpa [maxList, List.set] using max_le_max (Nat.le_refl y) (ih h')

theorem mem_set_self {α : Type} {l : List α} {c : Nat} (v : α)
    (h : c < l.length) : v ∈ l.set c v := by
  induction l generalizing c with
  | nil => simp at h
  | cons y ys ih =>
    cases c with
    | zero => simp [List.set]
    | succ c' =>
      have h' : c' < ys.length := by simpa using h
      simpa [List.set] using Or.inr (ih h')

/-! ## The amortizer invariant and claim C5 -/

theorem bufPullN_inv (qstream : Nat → String) {bs : Nat} (hbs : 1 ≤ bs) (j : Nat) :
    bufPullN qstream j { buffer := [], batchSize := bs, upstreamPos := 0, queries := 0 } =
      ((List.range j).map (fun i => some (qstream i)),
       { buffer := (List.range' j (ceilNat j bs * bs - j)).map qstream,
         batchSize := bs,
         upstreamPos := ceilNat j bs * bs,
         queries := ceilNat j bs }) := by
  induction j with
  | zero =>
    have h0 : ceilNat 0 bs = 0 := Nat.div_eq_of_lt (by omega)
    simp [bufPullN, h0]
  | succ j ih =>
    have hle : j ≤ ceilNat j bs * bs := le_mul_ceilNat hbs
    rcases Nat.lt_or_ge j (ceilNat j bs * bs) with hlt | hge
    · have hsucc : ceilNat (j + 1) bs = ceilNat j bs := ceilNat_succ_of_lt hbs hlt
      have hbuf : List.range' j (ceilNat j bs * bs - j) =
          j :: List.range' (j + 1) (ceilNat j bs * bs - (j + 1)) := by
        have h1 : ceilNat j bs * bs - j = (ceilNat j bs * bs - (j + 1)) + 1 := by omega
        rw [h1, List.range'_succ]
      simp only [bufPullN, ih, hbuf, List.map_cons, bufNext, List.range_succ, hsucc,
        List.map_append, List.map_cons, List.map_nil]
    · have heq : j = ceilNat j bs * bs := Nat.le_antisymm hle hge
      obtain ⟨bs', rfl⟩ : ∃ k, bs = k + 1 := ⟨bs - 1, by omega⟩
      have hbuf : List.range' j (ceilNat j (bs' + 1) * (bs' + 1) - j) = [] := by
        rw [← heq]
        simp
      have hrange : List.range (bs' + 1) = 0 :: List.range' 1 bs' := by
        rw [List.range_eq_range' (bs' + 1), List.range'_succ]
      have hsucc : ceilNat (j + 1) (bs' + 1) = ceilNat j (bs' + 1) + 1 :=
        ceilNat_succ_of_eq hbs heq
      have hpos : ceilNat (j + 1) (bs' + 1) * (bs' + 1) = j + (bs' + 1) := by
        rw [hsucc, Nat.succ_mul, ← heq]
      have htail : (List.range' 1 bs').map
            (fun t => qstream (ceilNat j (bs' + 1) * (bs' + 1) + t)) =
          (List.range' (j + 1) (ceilNat (j + 1) (bs' + 1) * (bs' + 1) - (j + 1))).map
            qstream := by
      -- both sides enumerate the freshly queried completions after the popped head
        rw [hpos, ← heq]
        have h2 : j + (bs' + 1) - (j + 1) = bs' := by omega
        rw [h2, List.range'_eq_map_range 1 bs', List.range'_eq_map_range (j + 1) bs']
        simp [List.map_map, Function.comp, Nat.add_assoc]
      simp only [bufPullN, ih, hbuf, bufNext, hrange, List.map_cons, List.range_succ,
        List.map_append, List.map_nil]
      rw [← heq, hpos, hsucc]
      have h2 : j + (bs' + 1) - (j + 1) = bs' := by omega
      rw [h2, List.range'_eq_map_range 1 bs', List.range'_eq_map_range (j + 1) bs']
      simp [List.map_map, Function.comp, Nat.add_assoc]

/-- Claim C5: for a Batched Query Amortizer with max_batch = M, pulling K
total completions from a cursor created with batch hint K issues exactly
ceil(K/M) underlying _query calls, each requesting at most M completions
(every query requests the fixed computed batch size, which is at most M,
and the upstream position advances by exactly queries times that size),
and the values are served in FIFO order: the i-th pulled value is the i-th
completion delivered by the underlying queries. -/
theorem c5_batch_amortization_bound (qstream : Nat → String) (M K : Nat)
    (hM : 1 ≤ M) (hK : 1 ≤ K) :
    (bufPullN qstream K (initBuf M K)).1 =
      (List.range K).map (fun i => some (qstream i)) ∧
    (bufPullN qstream K (initBuf M K)).2.queries = ceilNat K M ∧
    (bufPullN qstream K (initBuf M K)).2.upstreamPos =
      (bufPullN qstream K (initBuf M K)).2.queries * sbs K M ∧
    sbs K M ≤ M := by
  have hbs : 1 ≤ sbs K M := sbs_pos hM hK
  have hinit : initBuf M K =
      { buffer := [], batchSize := sbs K M, upstreamPos := 0, queries := 0 } := rfl
  rw [hinit, bufPullN_inv qstream hbs K]
  exact ⟨rfl, by simp [ceilNat_sbs hM hK], rfl, sbs_le hM hK⟩

/-- Witness for C5 at M = 2, K = 3. -/
theorem c5_witness :
    (bufPullN (fun i => toString i) 3 (initBuf 2 3)).1 =
      (List.range 3).map (fun i => some (toString i)) ∧
    (bufPullN (fun i => toString i) 3 (initBuf 2 3)).2.queries = ceilNat 3 2 ∧
    (bufPullN (fun i => toString i) 3 (initBuf 2 3)).2.upstreamPos =
      (bufPullN (fun i => toString i) 3 (initBuf 2 3)).2.queries * sbs 3 2 ∧
    sbs 3 2 ≤ 2 :=
  c5_batch_amortization_bound (fun i => toString i) 2 3 (by decide) (by decide)

/-- Claim C6 (amended): for the Batched Query Amortizer alone, over a fixed
deterministic collaborator stream, the values produced by pulling from a
cursor created by sample(prompt, b) do not depend on the batch hint b. -/
theorem c6_batch_hint_noninterference_amortizer (qstream : Nat → String)
    (M b b' K : Nat) (hM : 1 ≤ M) (hb : 1 ≤ b) (hb' : 1 ≤ b') :
    (bufPullN qstream K (initBuf M b)).1 = (bufPullN qstream K (initBuf M b')).1 := by
  have h1 := bufPullN_inv qstream (sbs_pos hM hb) K
  have h2 := bufPullN_inv qstream (sbs_pos hM hb') K
  have e1 : initBuf M b =
      { buffer := [], batchSize := sbs b M, upstreamPos := 0, queries := 0 } := rfl
  have e2 : initBuf M b' =
      { buffer := [], batchSize := sbs b' M, upstreamPos := 0, queries := 0 } := rfl
  rw [e1, e2, h1, h2]

/-- Witness for the amended C6 at M = 2, hints 1 and 3, two pulls. -/
theorem c6_witness :
    (bufPullN (fun i => toString i) 2 (initBuf 2 1)).1 =
      (bufPullN (fun i => toString i) 2 (initBuf 2 3)).1 :=
  c6_batch_hint_noninterference_amortizer (fun i => toString i) 2 1 3 2
    (by decide) (by decide) (by decide)

/-- Counterexample to C6 as stated: for a cache over a transport-backed
model, the independence isolator passes sample calls straight through, so
every fresh pull builds a new buffered iterator, queries the computed batch
size against the shared collaborator stream, and keeps only the first
completion.  With max_batch = 2 and the stream 0, 1, 2, ..., two pulls
under batch hint 1 observe 0 then 1, but under batch hint 2 observe 0
then 2: the observed values depend on the batch hint. -/
theorem c6_counterexample :
    (tcPullN (fun i => toString i) 2 1 2 { store := [], idx := 0, upos := 0 }).1 =
      ["0", "1"] ∧
    (tcPullN (fun i => toString i) 2 2 2 { store := [], idx := 0, upos := 0 }).1 =
      ["0", "2"] ∧
    (tcPullN (fun i => toString i) 2 1 2 { store := [], idx := 0, upos := 0 }).1 ≠
      (tcPullN (fun i => toString i) 2 2 2 { store := [], idx := 0, upos := 0 }).1 :=
  ⟨by decide, by decide, by decide⟩

/-! ## Laws of the Persistent storage backend -/

theorem insertByStem_length (p : Nat × String) :
    ∀ l : List (Nat × String), (insertByStem p l).length = l.length + 1 := by
  intro l
  induction l with
  | nil => rfl
  | cons q qs ih =>
    by_cases h : p.1 < q.1
    · simp [insertByStem, h]
    · simp [insertByStem, h, ih]

theorem list_numbered_files_length (d : Dir) :
    (list_numbered_files d).length = d.length := by
  induction d with
  | nil => rfl
  | cons p ps ih => simp [list_numbered_files, insertByStem_length, ih]

theorem loadDir_length (d : Dir) : (loadDir d).length = d.length := by
  simp [loadDir, list_numbered_files_length]

theorem insertByStem_append_max (p : Nat × String) {k : Nat} (v : String)
    (hp : p.1 < k) : ∀ l : List (Nat × String),
    insertByStem p (l ++ [(k, v)]) = insertByStem p l ++ [(k, v)] := by
  intro l
  induction l with
  | nil => simp [insertByStem, hp]
  | cons q qs ih =>
    by_cases h : p.1 < q.1
    · simp [insertByStem, h]
    · simp [insertByStem, h, ih]

theorem list_numbered_files_append_max {k : Nat} (v : String) :
    ∀ d : Dir, (∀ p ∈ d, p.1 < k) →
    list_numbered_files (d ++ [(k, v)]) = list_numbered_files d ++ [(k, v)] := by
  intro d
  induction d with
  | nil => intro _; rfl
  | cons p ps ih =>
    intro h
    have hp : p.1 < k := h p (List.mem_cons_self p ps)
    have hps : ∀ q ∈ ps, q.1 < k := fun q hq => h q (List.mem_cons_of_mem p hq)
    have e1 : list_numbered_files ((p :: ps) ++ [(k, v)]) =
        insertByStem p (list_numbered_files (ps ++ [(k, v)])) := rfl
    rw [e1, ih hps, insertByStem_append_max p v hp]
    rfl

theorem diskInv_store {d : Dir} (v : String) (h : diskInv d) :
    diskInv (storeDir d v) := by
  intro p hp
  have hlen : (storeDir d v).length = d.length + 1 := by simp [storeDir]
  rw [hlen]
  rcases List.mem_append.1 hp with hp | hp
  · exact Nat.lt_trans (h p hp) (Nat.lt_succ_self _)
  · simp at hp
    subst hp
    simp [list_numbered_files_length]

theorem loadDir_store {d : Dir} (v : String) (h : diskInv d) :
    loadDir (storeDir d v) = loadDir d ++ [v] := by
  unfold loadDir storeDir
  rw [list_numbered_files_length, list_numbered_files_append_max v d h]
  simp

/-! ## Characterization of the cache step -/

theorem cacheStep_new {σ : Type} (B : Backend σ) (os : Nat → Option String)
    (s : CacheSys σ) :
    cacheStep B os s CacheOp.newCursor =
      ({ s with cursors := s.cursors ++ [0] }, CacheObs.created) := rfl

theorem cacheStep_invalid {σ : Type} (B : Backend σ) (os : Nat → Option String)
    {s : CacheSys σ} {c : Nat} (hc : ¬ c < s.cursors.length) :
    cacheStep B os s (CacheOp.pull c) = (s, CacheObs.invalid) := by
  simp only [cacheStep, hc, if_false]

theorem cacheStep_replay {σ : Type} (B : Backend σ) (os : Nat → Option String)
    {s : CacheSys σ} {c : Nat} (hc : c < s.cursors.length)
    (hrep : s.cursors.getD c 0 < (B.load s.backing).length) :
    cacheStep B os s (CacheOp.pull c) =
      ({ s with cursors := s.cursors.set c (s.cursors.getD c 0 + 1) },
       CacheObs.returned c (s.cursors.getD c 0)
         ((B.load s.backing).getD (s.cursors.getD c 0) "")) := by
  simp only [cacheStep, hc, hrep, if_true]

theorem cacheStep_miss {σ : Type} (B : Backend σ) (os : Nat → Option String)
    {s : CacheSys σ} {c : Nat} (hc : c < s.cursors.length)
    (hrep : ¬ s.cursors.getD c 0 < (B.load s.backing).length)
    (hfom : s.failOnMiss = true) :
    cacheStep B os s (CacheOp.pull c) =
      (s, CacheObs.cacheMiss c (s.cursors.getD c 0)) := by
  simp only [cacheStep, hc, hrep, hfom, if_true, if_false]

theorem cacheStep_fetch {σ : Type} (B : Backend σ) (os : Nat → Option String)
    {s : CacheSys σ} {c : Nat} {v : String} (hc : c < s.cursors.length)
    (hrep : ¬ s.cursors.getD c 0 < (B.load s.backing).length)
    (hfom : s.failOnMiss = false) (hos : os s.attempts = some v) :
    cacheStep B os s (CacheOp.pull c) =
      ({ backing := B.store s.backing v, attempts := s.attempts + 1,
         cursors := s.cursors.set c (s.cursors.getD c 0 + 1), failOnMiss := false },
       CacheObs.returned c (s.cursors.getD c 0) v) := by
  simp only [cacheStep, hc, hrep, hfom, hos, Bool.false_eq_true, if_true, if_false]

theorem cacheStep_fetch_error {σ : Type} (B : Backend σ) (os : Nat → Option String)
    {s : CacheSys σ} {c : Nat} (hc : c < s.cursors.length)
    (hrep : ¬ s.cursors.getD c 0 < (B.load s.backing).length)
    (hfom : s.failOnMiss = false) (hos : os s.attempts = none) :
    cacheStep B os s (CacheOp.pull c) =
      ({ s with attempts := s.attempts + 1 },
       CacheObs.fetchError c (s.cursors.getD c 0)) := by
  simp only [cacheStep, hc, hrep, hfom, hos, Bool.false_eq_true, if_true, if_false]

theorem cacheRun_cons {σ : Type} (B : Backend σ) (os : Nat → Option String)
    (s : CacheSys σ) (op : CacheOp) (ops : List CacheOp) :
    cacheRun B os s (op :: ops) =
      ((cacheRun B os (cacheStep B os s op).1 ops).1,
       (cacheStep B os s op).2 :: (cacheRun B os (cacheStep B os s op).1 ops).2) := rfl

theorem cacheRun_append {σ : Type} (B : Backend σ) (os : Nat → Option String)
    (ops1 ops2 : List CacheOp) : ∀ s : CacheSys σ,
    cacheRun B os s (ops1 ++ ops2) =
      ((cacheRun B os (cacheRun B os s ops1).1 ops2).1,
       (cacheRun B os s ops1).2 ++ (cacheRun B os (cacheRun B os s ops1).1 ops2).2) := by
  induction ops1 with
  | nil => intro s; rfl
  | cons op ops1 ih =>
    intro s
    simp only [List.cons_append, cacheRun_cons, ih, List.cons_append]

theorem cacheRun_newCursor_start {σ : Type} (B : Backend σ) (os : Nat → Option String)
    (bk : σ) (fom : Bool) (ops : List CacheOp) :
    cacheRun B os (mkCache bk fom) (CacheOp.newCursor :: ops) =
      ((cacheRun B os
          { backing := bk, attempts := 0, cursors := [0], failOnMiss := fom } ops).1,
       CacheObs.created :: (cacheRun B os
          { backing := bk, attempts := 0, cursors := [0], failOnMiss := fom } ops).2) := rfl

/-! ## The cache invariant and replay determinism -/

theorem getD_mem {l : List Nat} {c : Nat} (hc : c < l.length) : l.getD c 0 ∈ l := by
  rw [List.getD_eq_getElem l 0 hc]
  exact List.getElem_mem hc

theorem getD_L0_stream {L0 : List String} {vals : Nat → String} {a i : Nat}
    (hi : i < (L0 ++ (List.range a).map vals).length) :
    (L0 ++ (List.range a).map vals).getD i "" = seqAt L0 vals i := by
  unfold seqAt
  by_cases hL : i < L0.length
  · rw [getD_append_left _ _ _ _ hL, if_pos hL]
  · rw [if_neg hL]
    have he : i = L0.length + (i - L0.length) := by omega
    conv_lhs => rw [he]
    rw [getD_append_right]
    have hj : i - L0.length < a := by
      simp only [List.length_append, List.length_map, List.length_range] at hi
      omega
    exact getD_map_range vals _ hj

theorem cacheStep_inv {σ : Type} {B : Backend σ} {inv : σ → Prop}
    (hstore : ∀ t v, inv t → inv (B.store t v))
    (hload : ∀ t v, inv t → B.load (B.store t v) = B.load t ++ [v])
    (vals : Nat → String) (L0 : List String) (s : CacheSys σ) (op : CacheOp)
    (h : CacheInv B inv vals L0 s) :
    CacheInv B inv vals L0 (cacheStep B (fun k => some (vals k)) s op).1 := by
  obtain ⟨h1, h2, h3, h4⟩ := h
  cases op with
  | newCursor =>
    rw [cacheStep_new]
    refine ⟨h1, h2, ?_, ?_⟩
    · intro i hi
      rcases List.mem_append.1 hi with hi | hi
      · exact h3 i hi
      · simp at hi
        subst hi
        exact Nat.zero_le _
    · exact Nat.le_trans h4 (maxList_le_maxList_append _ _)
  | pull c =>
    by_cases hc : c < s.cursors.length
    · by_cases hrep : s.cursors.getD c 0 < (B.load s.backing).length
      · rw [cacheStep_replay B _ hc hrep]
        refine ⟨h1, h2, ?_, ?_⟩
        · intro i hi
          rcases List.mem_or_eq_of_mem_set hi with hi | hi
          · exact h3 i hi
          · subst hi
            exact hrep
        · exact Nat.le_trans h4 (maxList_le_maxList_set (Nat.le_succ _))
      · cases hfom : s.failOnMiss with
        | true =>
          rw [cacheStep_miss B _ hc hrep hfom]
          exact ⟨h1, h2, h3, h4⟩
        | false =>
          rw [cacheStep_fetch B _ hc hrep hfom rfl]
          have hle := h3 _ (getD_mem hc)
          have hieq : s.cursors.getD c 0 = (B.load s.backing).length :=
            Nat.le_antisymm hle (Nat.le_of_not_lt hrep)
          have hlen : (B.load s.backing).length = L0.length + s.attempts := by
            rw [h2]
            simp
          refine ⟨hstore _ _ h1, ?_, ?_, ?_⟩
          · show B.load (B.store s.backing (vals s.attempts)) =
              L0 ++ (List.range (s.attempts + 1)).map vals
            rw [hload _ _ h1, h2, List.range_succ, List.map_append]
            simp
          · show ∀ i ∈ s.cursors.set c (s.cursors.getD c 0 + 1),
              i ≤ (B.load (B.store s.backing (vals s.attempts))).length
            intro i hi
            rw [hload _ _ h1, List.length_append, List.length_singleton]
            rcases List.mem_or_eq_of_mem_set hi with hi | hi
            · have := h3 i hi
              omega
            · subst hi
              omega
          · show s.attempts + 1 ≤ maxList (s.cursors.set c (s.cursors.getD c 0 + 1))
            have hmax := le_maxList_of_mem (mem_set_self (s.cursors.getD c 0 + 1) hc)
            omega
    · rw [cacheStep_invalid B _ hc]
      exact ⟨h1, h2, h3, h4⟩

theorem cacheStep_returned_eq {σ : Type} {B : Backend σ} {inv : σ → Prop}
    (vals : Nat → String) (L0 : List String) (s : CacheSys σ) (op : CacheOp)
    (h : CacheInv B inv vals L0 s) {c i : Nat} {v : String}
    (he : (cacheStep B (fun k => some (vals k)) s op).2 = CacheObs.returned c i v) :
    v = seqAt L0 vals i := by
  obtain ⟨h1, h2, h3, h4⟩ := h
  cases op with
  | newCursor =>
    rw [cacheStep_new] at he
    simp at he
  | pull c' =>
    by_cases hc : c' < s.cursors.length
    · by_cases hrep : s.cursors.getD c' 0 < (B.load s.backing).length
      · rw [cacheStep_replay B _ hc hrep] at he
        simp only [CacheObs.returned.injEq] at he
        obtain ⟨-, hi, hv⟩ := he
        subst hi
        rw [← hv, h2]
        rw [h2] at hrep
        exact getD_L0_stream hrep
      · cases hfom : s.failOnMiss with
        | true =>
          rw [cacheStep_miss B _ hc hrep hfom] at he
          simp at he
        | false =>
          rw [cacheStep_fetch B _ hc hrep hfom rfl] at he
          simp only [CacheObs.returned.injEq] at he
          obtain ⟨-, hi, hv⟩ := he
          have hle := h3 _ (getD_mem hc)
          have hieq : s.cursors.getD c' 0 = (B.load s.backing).length :=
            Nat.le_antisymm hle (Nat.le_of_not_lt hrep)
          have hlen : (B.load s.backing).length = L0.length + s.attempts := by
            rw [h2]
            simp
          rw [← hv, ← hi, hieq, hlen]
          unfold seqAt
          rw [if_neg (by omega)]
          congr 1
          omega
    · rw [cacheStep_invalid B _ hc] at he
      simp at he

theorem cacheRun_inv {σ : Type} (B : Backend σ) (inv : σ → Prop)
    (hstore : ∀ t v, inv t → inv (B.store t v))
    (hload : ∀ t v, inv t → B.load (B.store t v) = B.load t ++ [v])
    (vals : Nat → String) (L0 : List String) :
    ∀ (ops : List CacheOp) (s : CacheSys σ), CacheInv B inv vals L0 s →
    CacheInv B inv vals L0 (cacheRun B (fun k => some (vals k)) s ops).1 := by
  intro ops
  induction ops with
  | nil => intro s h; exact h
  | cons op ops ih =>
    intro s h
    rw [cacheRun_cons]
    exact ih _ (cacheStep_inv hstore hload vals L0 s op h)

theorem cacheRun_returned {σ : Type} (B : Backend σ) (inv : σ → Prop)
    (hstore : ∀ t v, inv t → inv (B.store t v))
    (hload : ∀ t v, inv t → B.load (B.store t v) = B.load t ++ [v])
    (vals : Nat → String) (L0 : List String) :
    ∀ (ops : List CacheOp) (s : CacheSys σ), CacheInv B inv vals L0 s →
    ∀ (c i : Nat) (v : String),
      CacheObs.returned c i v ∈ (cacheRun B (fun k => some (vals k)) s ops).2 →
      v = seqAt L0 vals i := by
  intro ops
  induction ops with
  | nil => intro s _ c i v hmem; simp [cacheRun] at hmem
  | cons op ops ih =>
    intro s h c i v hmem
    rw [cacheRun_cons] at hmem
    rcases List.mem_cons.1 hmem with hmem | hmem
    · exact cacheStep_returned_eq vals L0 s op h hmem.symm
    · exact ih _ (cacheStep_inv hstore hload vals L0 s op h) c i v hmem

/-- Claim C1: replay determinism for both cache flavours.  For an
in-memory Repeatable cache (memBackend) over any initial store content and
a Persistent cache (diskBackend) over any well-formed fingerprint
directory, given a fixed sequence of fresh fetches from the inner isolated
capability, the value returned at position i — by any cursor, under any
interleaving of cursor creations and pulls — is always seqAt init vals i,
the i-th element of the logical sequence; hence any two pulls at the same
position return the same value. -/
theorem c1_replay_determinism :
    (∀ (vals : Nat → String) (init : List String) (fom : Bool) (ops : List CacheOp)
        (c i : Nat) (v : String),
        CacheObs.returned c i v ∈
          (cacheRun memBackend (fun k => some (vals k)) (mkCache init fom) ops).2 →
        v = seqAt init vals i) ∧
    (∀ (vals : Nat → String) (d : Dir) (fom : Bool) (ops : List CacheOp)
        (c i : Nat) (v : String), diskInv d →
        CacheObs.returned c i v ∈
          (cacheRun diskBackend (fun k => some (vals k)) (mkCache d fom) ops).2 →
        v = seqAt (loadDir d) vals i) := by
  constructor
  · intro vals init fom ops c i v hmem
    refine cacheRun_returned memBackend (fun _ => True) (fun _ _ _ => trivial)
      (fun _ _ _ => rfl) vals init ops (mkCache init fom) ?_ c i v hmem
    refine ⟨trivial, by simp [mkCache, memBackend], ?_, ?_⟩
    · intro j hj
      simp [mkCache] at hj
    · simp [mkCache, maxList]
  · intro vals d fom ops c i v hd hmem
    refine cacheRun_returned diskBackend diskInv (fun _ w hw => diskInv_store w hw)
      (fun _ w hw => loadDir_store w hw) vals (loadDir d) ops (mkCache d fom) ?_ c i v hmem
    refine ⟨hd, by simp [mkCache, diskBackend], ?_, ?_⟩
    · intro j hj
      simp [mkCache] at hj
    · simp [mkCache, maxList]

/-- Witness for C1: a two-cursor interleaving over the in-memory cache. -/
theorem c1_witness : "a" = seqAt [] (fun _ => "a") 1 :=
  c1_replay_determinism.1 (fun _ => "a") [] false
    [CacheOp.newCursor, CacheOp.pull 0, CacheOp.newCursor, CacheOp.pull 1,
     CacheOp.pull 1, CacheOp.pull 0]
    0 1 "a" (by decide)

/-- Claim C2: at most one fresh fetch per position.  For both cache
flavours, under any interleaving of cursor creations and pulls, the total
count of next() calls on the inner isolated capability never exceeds the
largest position any cursor has reached (the number of distinct positions
ever requested); moreover a single pull performs at most one such call,
for every backend and every outcome stream (hence regardless of the batch
hint, which only reaches the inner capability). -/
theorem c2_at_most_one_fresh_per_position :
    (∀ (vals : Nat → String) (init : List String) (fom : Bool) (ops : List CacheOp),
        (cacheRun memBackend (fun k => some (vals k)) (mkCache init fom) ops).1.attempts ≤
          maxList (cacheRun memBackend (fun k => some (vals k)) (mkCache init fom) ops).1.cursors) ∧
    (∀ (vals : Nat → String) (d : Dir) (fom : Bool) (ops : List CacheOp), diskInv d →
        (cacheRun diskBackend (fun k => some (vals k)) (mkCache d fom) ops).1.attempts ≤
          maxList (cacheRun diskBackend (fun k => some (vals k)) (mkCache d fom) ops).1.cursors) ∧
    (∀ (σ : Type) (B : Backend σ) (ostream : Nat → Option String) (s : CacheSys σ)
        (op : CacheOp),
        (cacheStep B ostream s op).1.attempts ≤ s.attempts + 1) := by
  refine ⟨?_, ?_, ?_⟩
  · intro vals init fom ops
    have h := cacheRun_inv memBackend (fun _ => True) (fun _ _ _ => trivial)
      (fun _ _ _ => rfl) vals init ops (mkCache init fom)
      ⟨trivial, by simp [mkCache, memBackend], by intro j hj; simp [mkCache] at hj,
       by simp [mkCache, maxList]⟩
    exact h.2.2.2
  · intro vals d fom ops hd
    have h := cacheRun_inv diskBackend diskInv
      (fun _ w hw => diskInv_store w hw)
      (fun _ w hw => loadDir_store w hw) vals (loadDir d) ops (mkCache d fom)
      ⟨hd, by simp [mkCache, diskBackend], by intro j hj; simp [mkCache] at hj,
       by simp [mkCache, maxList]⟩
    exact h.2.2.2
  · intro σ B ostream s op
    cases op with
    | newCursor =>
      rw [cacheStep_new]
      exact Nat.le_succ _
    | pull c =>
      by_cases hc : c < s.cursors.length
      · by_cases hrep : s.cursors.getD c 0 < (B.load s.backing).length
        · rw [cacheStep_replay B _ hc hrep]
          exact Nat.le_succ _
        · cases hfom : s.failOnMiss with
          | false =>
            cases hos : ostream s.attempts with
            | none =>
              rw [cacheStep_fetch_error B _ hc hrep hfom hos]
            | some v =>
              rw [cacheStep_fetch B _ hc hrep hfom hos]
          | true =>
            rw [cacheStep_miss B _ hc hrep hfom]
            exact Nat.le_succ _
      · rw [cacheStep_invalid B _ hc]
        exact Nat.le_succ _

/-- Witness for C2 on the Persistent side: a fresh directory, two cursors,
three pulls. -/
theorem c2_witness :
    (cacheRun diskBackend (fun k => some (toString k)) (mkCache ([] : Dir) false)
      [CacheOp.newCursor, CacheOp.pull 0, CacheOp.newCursor, CacheOp.pull 1,
       CacheOp.pull 1]).1.attempts ≤
      maxList (cacheRun diskBackend (fun k => some (toString k)) (mkCache ([] : Dir) false)
        [CacheOp.newCursor, CacheOp.pull 0, CacheOp.newCursor, CacheOp.pull 1,
         CacheOp.pull 1]).1.cursors :=
  c2_at_most_one_fresh_per_position.2.1 (fun k => toString k) [] false
    [CacheOp.newCursor, CacheOp.pull 0, CacheOp.newCursor, CacheOp.pull 1,
     CacheOp.pull 1] (by intro p hp; simp at hp)

/-! ## Replication mode -/

theorem replication_run {σ : Type} (B : Backend σ) (os : Nat → Option String) :
    ∀ (ops : List CacheOp) (s : CacheSys σ), s.failOnMiss = true →
    (cacheRun B os s ops).1.backing = s.backing ∧
    (cacheRun B os s ops).1.attempts = s.attempts ∧
    (cacheRun B os s ops).1.failOnMiss = true ∧
    ∀ (c i : Nat) (v : String), CacheObs.returned c i v ∈ (cacheRun B os s ops).2 →
      i < (B.load s.backing).length ∧ v = (B.load s.backing).getD i "" := by
  intro ops
  induction ops with
  | nil =>
    intro s h
    exact ⟨rfl, rfl, h, by intro c i v hm; simp [cacheRun] at hm⟩
  | cons op ops ih =>
    intro s h
    rw [cacheRun_cons]
    have hstep : (cacheStep B os s op).1.backing = s.backing ∧
        (cacheStep B os s op).1.attempts = s.attempts ∧
        (cacheStep B os s op).1.failOnMiss = true ∧
        (∀ (c i : Nat) (v : String),
          (cacheStep B os s op).2 = CacheObs.returned c i v →
          i < (B.load s.backing).length ∧ v = (B.load s.backing).getD i "") := by
      cases op with
      | newCursor =>
        rw [cacheStep_new]
        exact ⟨rfl, rfl, h, by intro c i v he; simp at he⟩
      | pull c =>
        by_cases hc : c < s.cursors.length
        · by_cases hrep : s.cursors.getD c 0 < (B.load s.backing).length
          · rw [cacheStep_replay B _ hc hrep]
            refine ⟨rfl, rfl, h, ?_⟩
            intro c' i v he
            simp only [CacheObs.returned.injEq] at he
            obtain ⟨-, hi, hv⟩ := he
            subst hi
            exact ⟨hrep, hv.symm⟩
          · rw [cacheStep_miss B _ hc hrep h]
            exact ⟨rfl, rfl, h, by intro c' i v he; simp at he⟩
        · rw [cacheStep_invalid B _ hc]
          exact ⟨rfl, rfl, h, by intro c' i v he; simp at he⟩
    obtain ⟨hb, ha, hf, ho⟩ := hstep
    have hrest := ih (cacheStep B os s op).1 hf
    refine ⟨by rw [hrest.1, hb], by rw [hrest.2.1, ha], hrest.2.2.1, ?_⟩
    intro c i v hm
    rcases List.mem_cons.1 hm with hm | hm
    · exact ho c i v hm.symm
    · have hx := hrest.2.2.2 c i v hm
      rw [hb] at hx
      exact hx

theorem replay_pulls {σ : Type} (B : Backend σ) (os : Nat → Option String) :
    ∀ (m j : Nat) (bk : σ) (a : Nat) (fom : Bool),
    j + m ≤ (B.load bk).length →
    cacheRun B os { backing := bk, attempts := a, cursors := [j], failOnMiss := fom }
        (List.replicate m (CacheOp.pull 0)) =
      ({ backing := bk, attempts := a, cursors := [j + m], failOnMiss := fom },
       (List.range' j m).map (fun i => CacheObs.returned 0 i ((B.load bk).getD i ""))) := by
  intro m
  induction m with
  | zero =>
    intro j bk a fom h
    simp [cacheRun]
  | succ m ih =>
    intro j bk a fom h
    rw [List.replicate_succ, cacheRun_cons]
    have hc : (0 : Nat) <
        ({ backing := bk, attempts := a, cursors := [j], failOnMiss := fom } :
          CacheSys σ).cursors.length := by simp
    have hrep : ({ backing := bk, attempts := a, cursors := [j], failOnMiss := fom } :
        CacheSys σ).cursors.getD 0 0 <
        (B.load ({ backing := bk, attempts := a, cursors := [j], failOnMiss := fom } :
          CacheSys σ).backing).length := by
      simp only [List.getD_cons_zero]
      omega
    rw [cacheStep_replay B os hc hrep]
    simp only [List.getD_cons_zero, List.set_cons_zero]
    rw [ih (j + 1) bk a fom (by omega)]
    rw [List.range'_succ]
    have harith : j + 1 + m = j + (m + 1) := by omega
    rw [harith]
    simp

/-- Claim C3: replication mode.  For any fingerprint directory holding
k = d.length recorded values and any outcome stream for the (never
consulted) inner capability: (1) no operation sequence ever triggers a
next() call on the inner capability, so no transport query is issued;
(2) every successful pull replays a stored position i < k with the stored
value; (3) a single cursor pulled k + 1 times returns the k stored values
in order and then fails with ReplicationCacheMiss at position k. -/
theorem c3_replication_mode (d : Dir) (ostream : Nat → Option String) :
    (∀ ops : List CacheOp,
      (cacheRun diskBackend ostream (mkCache d true) ops).1.attempts = 0) ∧
    (∀ (ops : List CacheOp) (c i : Nat) (v : String),
      CacheObs.returned c i v ∈ (cacheRun diskBackend ostream (mkCache d true) ops).2 →
      i < d.length ∧ v = (loadDir d).getD i "") ∧
    (cacheRun diskBackend ostream (mkCache d true)
        (CacheOp.newCursor :: List.replicate (d.length + 1) (CacheOp.pull 0))).2 =
      CacheObs.created ::
        (List.range d.length).map (fun i => CacheObs.returned 0 i ((loadDir d).getD i "")) ++
        [CacheObs.cacheMiss 0 d.length] := by
  refine ⟨?_, ?_, ?_⟩
  · intro ops
    exact (replication_run diskBackend ostream ops (mkCache d true) rfl).2.1
  · intro ops c i v hm
    have h := (replication_run diskBackend ostream ops (mkCache d true) rfl).2.2.2 c i v hm
    have hlen : (diskBackend.load (mkCache d true).backing).length = d.length := by
      simp [mkCache, diskBackend, loadDir_length]
    exact ⟨hlen ▸ h.1, h.2⟩
  · rw [cacheRun_newCursor_start]
    have hsplit : List.replicate (d.length + 1) (CacheOp.pull 0) =
        List.replicate d.length (CacheOp.pull 0) ++ [CacheOp.pull 0] :=
      List.replicate_succ' _ _
    rw [hsplit, cacheRun_append]
    have hlen : (diskBackend.load d).length = d.length := by
      simp [diskBackend, loadDir_length]
    rw [replay_pulls diskBackend ostream d.length 0 d 0 true (by omega)]
    have hc : (0 : Nat) < ([0 + d.length] : List Nat).length := by simp
    have hrep : ¬ (([0 + d.length] : List Nat).getD 0 0 < (diskBackend.load d).length) := by
      simp only [List.getD_cons_zero]
      omega
    rw [cacheRun_cons,
      @cacheStep_miss Dir diskBackend ostream ⟨d, 0, [0 + d.length], true⟩ 0 hc hrep rfl]
    simp only [cacheRun, List.getD_cons_zero, Nat.zero_add]
    rw [List.range_eq_range' d.length]
    simp [diskBackend]

/-- Witness for C3 over a one-file directory. -/
theorem c3_witness : (0 : Nat) < 1 ∧ "a" = (loadDir [(0, "a")]).getD 0 "" :=
  (c3_replication_mode [(0, "a")] (fun _ => none)).2.1
    [CacheOp.newCursor, CacheOp.pull 0] 0 0 "a" (by decide)

/-! ## Writing through a cache, and the persistence round trip -/

theorem extend_pulls {σ : Type} (B : Backend σ) (inv : σ → Prop)
    (hstore : ∀ t v, inv t → inv (B.store t v))
    (hload : ∀ t v, inv t → B.load (B.store t v) = B.load t ++ [v])
    (vals : Nat → String) :
    ∀ (m : Nat) (bk : σ) (a j : Nat), inv bk → (B.load bk).length = j →
    cacheRun B (fun k => some (vals k))
        { backing := bk, attempts := a, cursors := [j], failOnMiss := false }
        (List.replicate m (CacheOp.pull 0)) =
      ({ backing := List.foldl B.store bk ((List.range m).map (fun t => vals (a + t))),
         attempts := a + m, cursors := [j + m], failOnMiss := false },
       (List.range m).map (fun t => CacheObs.returned 0 (j + t) (vals (a + t)))) ∧
    inv (List.foldl B.store bk ((List.range m).map (fun t => vals (a + t)))) ∧
    B.load (List.foldl B.store bk ((List.range m).map (fun t => vals (a + t)))) =
      B.load bk ++ (List.range m).map (fun t => vals (a + t)) := by
  intro m
  induction m with
  | zero =>
    intro bk a j hiv hlen
    refine ⟨by simp [cacheRun], hiv, by simp⟩
  | succ m ih =>
    intro bk a j hiv hlen
    obtain ⟨hrun, hinv', hload'⟩ := ih bk a j hiv hlen
    have hsplit : List.replicate (m + 1) (CacheOp.pull 0) =
        List.replicate m (CacheOp.pull 0) ++ [CacheOp.pull 0] :=
      List.replicate_succ' _ _
    have hlen' : (B.load (List.foldl B.store bk
        ((List.range m).map (fun t => vals (a + t))))).length = j + m := by
      rw [hload']
      simp [hlen]
    have hrep : ¬ (([j + m] : List Nat).getD 0 0 <
        (B.load (List.foldl B.store bk
          ((List.range m).map (fun t => vals (a + t))))).length) := by
      simp only [List.getD_cons_zero, hlen']
      omega
    have hc : (0 : Nat) < ([j + m] : List Nat).length := by simp
    constructor
    · rw [hsplit, cacheRun_append, hrun, cacheRun_cons,
        @cacheStep_fetch σ B (fun k => some (vals k))
          ⟨List.foldl B.store bk ((List.range m).map (fun t => vals (a + t))),
           a + m, [j + m], false⟩ 0 (vals (a + m)) hc hrep rfl rfl]
      simp only [cacheRun, List.getD_cons_zero, List.set_cons_zero]
      rw [List.range_succ, List.map_append, List.map_append, List.foldl_append]
      simp [Nat.add_assoc]
    · constructor
      · rw [List.range_succ, List.map_append, List.foldl_append]
        exact hstore _ _ hinv'
      · rw [List.range_succ, List.map_append, List.foldl_append]
        simp only [List.map_cons, List.map_nil, List.foldl_cons, List.foldl_nil]
        rw [hload _ _ hinv', hload']
        simp

theorem list_numbered_files_ascending (g : Nat → String) :
    ∀ (n a : Nat),
    list_numbered_files ((List.range' a n).map (fun i => (i, g i))) =
      (List.range' a n).map (fun i => (i, g i)) := by
  intro n
  induction n with
  | zero => intro a; rfl
  | succ n ih =>
    intro a
    rw [List.range'_succ]
    simp only [List.map_cons, list_numbered_files]
    rw [ih (a + 1)]
    cases n with
    | zero => rfl
    | succ n' =>
      rw [List.range'_succ]
      simp only [List.map_cons, insertByStem]
      rw [if_pos (Nat.lt_succ_self a)]

theorem loadDir_ascending (g : Nat → String) (n : Nat) :
    loadDir ((List.range n).map (fun i => (i, g i))) = (List.range n).map g := by
  unfold loadDir
  rw [List.range_eq_range' n, list_numbered_files_ascending g n 0]
  simp

theorem foldl_storeDir (vals : Nat → String) :
    ∀ n : Nat, List.foldl storeDir [] ((List.range n).map vals) =
      (List.range n).map (fun i => (i, vals i)) := by
  intro n
  induction n with
  | zero => rfl
  | succ n ih =>
    rw [List.range_succ, List.map_append, List.foldl_append, ih]
    simp only [List.map_cons, List.map_nil, List.foldl_cons, List.foldl_nil]
    unfold storeDir
    rw [list_numbered_files_length]
    simp

/-- Claim C4: persistence round trip.  Writing n completions for a prompt
through a Persistent cache over an initially empty fingerprint directory
leaves exactly the files 0.md .. (n-1).md holding those completions in
write order (the stems form the contiguous range [0, n)); a freshly
constructed Persistent instance over the same root (same alias and
temperature, hence the same directory) replays exactly those n values in
the same order, issuing no fresh fetch whatever the inner capability would
return.  Replay order is by integer stem value, not lexical: on an 11-file
directory enumerated in scrambled order, loadDir returns contents in the
order 0,1,...,10, which differs from the lexical filename order. -/
theorem c4_persistence_round_trip :
    (∀ (vals : Nat → String) (n : Nat),
      dirAfterWrites vals n = (List.range n).map (fun i => (i, vals i)) ∧
      (dirAfterWrites vals n).map Prod.fst = List.range n ∧
      loadDir (dirAfterWrites vals n) = (List.range n).map vals ∧
      (∀ ostream : Nat → Option String,
        cacheRun diskBackend ostream (mkCache (dirAfterWrites vals n) false)
            (CacheOp.newCursor :: List.replicate n (CacheOp.pull 0)) =
          ({ backing := dirAfterWrites vals n, attempts := 0, cursors := [n],
             failOnMiss := false },
           CacheObs.created ::
             (List.range n).map (fun i => CacheObs.returned 0 i (vals i))))) ∧
    loadDir scrambledDir =
      ["v0", "v1", "v2", "v3", "v4", "v5", "v6", "v7", "v8", "v9", "v10"] ∧
    lexLoadDir scrambledDir ≠ loadDir scrambledDir := by
  refine ⟨?_, by decide, by decide⟩
  intro vals n
  have hdisk := extend_pulls diskBackend diskInv
    (fun _ w hw => diskInv_store w hw) (fun _ w hw => loadDir_store w hw)
    vals n ([] : Dir) 0 0 (by intro p hp; simp at hp)
    (by simp [diskBackend, loadDir, list_numbered_files])
  obtain ⟨hrun, hinv', hload'⟩ := hdisk
  have hdir : dirAfterWrites vals n = (List.range n).map (fun i => (i, vals i)) := by
    unfold dirAfterWrites
    rw [cacheRun_newCursor_start, hrun]
    have : List.foldl diskBackend.store [] ((List.range n).map (fun t => vals (0 + t))) =
        (List.range n).map (fun i => (i, vals i)) := by
      have he : (List.range n).map (fun t => vals (0 + t)) = (List.range n).map vals := by
        simp
      rw [he]
      exact foldl_storeDir vals n
    rw [this]
  refine ⟨hdir, ?_, ?_, ?_⟩
  · rw [hdir, List.map_map]
    have hcomp : (Prod.fst ∘ fun i : Nat => (i, vals i)) = fun i : Nat => i := rfl
    rw [hcomp]
    exact List.map_id' _
  · rw [hdir]
    exact loadDir_ascending vals n
  · intro ostream
    rw [cacheRun_newCursor_start]
    have hlen : (diskBackend.load (dirAfterWrites vals n)).length = n := by
      show (loadDir (dirAfterWrites vals n)).length = n
      rw [hdir, loadDir_ascending vals n]
      simp
    rw [replay_pulls diskBackend ostream n 0 (dirAfterWrites vals n) 0 false (by omega)]
    have hobs : (List.range' 0 n).map
        (fun i => CacheObs.returned 0 i ((diskBackend.load (dirAfterWrites vals n)).getD i "")) =
        (List.range n).map (fun i => CacheObs.returned 0 i (vals i)) := by
      rw [← List.range_eq_range' n]
      apply List.map_congr_left
      intro i hi
      have hi' : i < n := List.mem_range.1 hi
      have : (diskBackend.load (dirAfterWrites vals n)).getD i "" = vals i := by
        show (loadDir (dirAfterWrites vals n)).getD i "" = vals i
        rw [hdir, loadDir_ascending vals n]
        exact getD_map_range vals "" hi'
      rw [this]
    rw [hobs]
    have hn : 0 + n = n := Nat.zero_add n
    rw [hn]

/-! ## Error atomicity of a pull -/

/-- Claim C10: error atomicity.  When a pull misses and the fresh fetch
from the inner capability raises (outcome none), the cache state is left
with only the fetch-attempt counter advanced: nothing is stored for the
fingerprint and no cursor position moves, because __next__ stores and
advances only after next() on the inner capability has returned a value.
Consequently a retry pulls at the same position i: if the next fetch
attempt yields v, the retry stores v and returns it at position i. -/
theorem c10_error_atomicity (σ : Type) (B : Backend σ) (ostream : Nat → Option String)
    (s : CacheSys σ) (c i : Nat) (hc : c < s.cursors.length)
    (hg : s.cursors.getD c 0 = i) (hrep : ¬ i < (B.load s.backing).length)
    (hfom : s.failOnMiss = false) (hos : ostream s.attempts = none) :
    cacheStep B ostream s (CacheOp.pull c) =
      ({ s with attempts := s.attempts + 1 }, CacheObs.fetchError c i) ∧
    ∀ v : String, ostream (s.attempts + 1) = some v →
      cacheStep B ostream { s with attempts := s.attempts + 1 } (CacheOp.pull c) =
        ({ backing := B.store s.backing v, attempts := s.attempts + 2,
           cursors := s.cursors.set c (i + 1), failOnMiss := false },
         CacheObs.returned c i v) := by
  subst hg
  constructor
  · exact cacheStep_fetch_error B ostream hc hrep hfom hos
  · intro v hv
    exact @cacheStep_fetch σ B ostream { s with attempts := s.attempts + 1 } c v
      hc hrep hfom hv

/-- Witness for C10: a failed fetch followed by a successful retry at the
same position on an in-memory cache. -/
theorem c10_witness :
    cacheStep memBackend (fun k => if k = 0 then none else some "x")
        { backing := [], attempts := 1, cursors := [0], failOnMiss := false }
        (CacheOp.pull 0) =
      ({ backing := ["x"], attempts := 2, cursors := [1], failOnMiss := false },
       CacheObs.returned 0 0 "x") :=
  (c10_error_atomicity (List String) memBackend (fun k => if k = 0 then none else some "x")
    { backing := [], attempts := 0, cursors := [0], failOnMiss := false }
    0 0 (by decide) rfl (by decide) rfl rfl).2 "x" rfl

/-! ## The dead collapse guard of Repeatable.sample -/

/-- Claim C7 (against the code): the collapse guard of Repeatable.sample
tests the runtime class of self._inner, but the _BaseBatchedCache
constructor always stores the Independent wrapper there, so the guard is
false for every wrapped capability and sample never delegates.  Wrapping
Repeatable around another cache therefore does consult and write a second
memoization layer: after one sample call and one pull on
Repeatable(Repeatable(base)), the outer cache's store holds a copy of the
value (which nonetheless equals the value the inner cache alone would have
returned at position 0). -/
theorem c7_dead_collapse_guard :
    (∀ w : PyClass, repeatableDelegationGuard (innerFieldClass w) = false) ∧
    (nestRun (fun i => toString i) initNest [CacheOp.newCursor, CacheOp.pull 0]).1.outer =
      ["0"] ∧
    (nestRun (fun i => toString i) initNest [CacheOp.newCursor, CacheOp.pull 0]).1.inner =
      ["0"] ∧
    (nestRun (fun i => toString i) initNest [CacheOp.newCursor, CacheOp.pull 0]).2 =
      [CacheObs.created, CacheObs.returned 0 0 "0"] :=
  ⟨fun _ => rfl, by decide, by decide, by decide⟩

/-! ## The independence isolator -/

theorem lookupIter_append_some {pid : String} {r : Nat × Nat} :
    ∀ {l : List (String × Nat × Nat)} (l' : List (String × Nat × Nat)),
    lookupIter pid l = some r → lookupIter pid (l ++ l') = some r := by
  intro l
  induction l with
  | nil => intro l' h; simp [lookupIter] at h
  | cons q rest ih =>
    intro l' h
    obtain ⟨qp, qid, qb⟩ := q
    by_cases hq : qp = pid
    · simp only [lookupIter, hq, if_true] at h
      simp only [List.cons_append, lookupIter, hq, if_true]
      exact h
    · simp only [lookupIter, hq, if_false] at h
      simp only [List.cons_append, lookupIter, hq, if_false]
      exact ih l' h

theorem lookupIter_append_self {pid : String} (x b : Nat) :
    ∀ {l : List (String × Nat × Nat)}, lookupIter pid l = none →
    lookupIter pid (l ++ [(pid, x, b)]) = some (x, b) := by
  intro l
  induction l with
  | nil => intro _; simp [lookupIter]
  | cons q rest ih =>
    intro h
    obtain ⟨qp, qid, qb⟩ := q
    by_cases hq : qp = pid
    · simp only [lookupIter, hq, if_true] at h
      cases h
    · simp only [lookupIter, hq, if_false] at h
      simp only [List.cons_append, lookupIter, hq, if_false]
      exact ih h

theorem lookupIter_retune_self {pid : String} {id b0 : Nat} (b : Nat) :
    ∀ {l : List (String × Nat × Nat)}, lookupIter pid l = some (id, b0) →
    lookupIter pid (retuneIter pid b l) = some (id, b) := by
  intro l
  induction l with
  | nil => intro h; simp [lookupIter] at h
  | cons q rest ih =>
    intro h
    obtain ⟨qp, qid, qb⟩ := q
    by_cases hq : qp = pid
    · simp only [lookupIter, hq, if_true] at h
      obtain ⟨h1, h2⟩ := Prod.mk.injEq .. ▸ Option.some.injEq .. ▸ h
      simp only [retuneIter, hq, if_true, lookupIter]
      rw [Option.some.injEq, Prod.mk.injEq] at h
      simp [h.1]
    · simp only [lookupIter, hq, if_false] at h
      simp only [retuneIter, hq, if_false, lookupIter]
      exact ih h

theorem lookupIter_retune_pres {pid : String} (q : String) {id b0 : Nat} (b : Nat) :
    ∀ {l : List (String × Nat × Nat)}, lookupIter pid l = some (id, b0) →
    ∃ b1, lookupIter pid (retuneIter q b l) = some (id, b1) := by
  intro l
  induction l with
  | nil => intro h; simp [lookupIter] at h
  | cons p rest ih =>
    intro h
    obtain ⟨pp, pid2, pb⟩ := p
    by_cases hpp : pp = pid
    · subst hpp
      simp only [lookupIter, eq_self_iff_true, if_true] at h
      rw [Option.some.injEq, Prod.mk.injEq] at h
      by_cases hpq : pp = q
      · subst hpq
        exact ⟨b, by simp [retuneIter, lookupIter, h.1]⟩
      · exact ⟨pb, by simp [retuneIter, lookupIter, hpq, h.1]⟩
    · simp only [lookupIter, if_neg hpp] at h
      by_cases hpq : pp = q
      · subst hpq
        exact ⟨b0, by simp [retuneIter, lookupIter, hpp, h]⟩
      · obtain ⟨b1, hb1⟩ := ih h
        exact ⟨b1, by simp [retuneIter, lookupIter, hpp, hpq, hb1]⟩

theorem indRun_preserves {pid : String} {id : Nat} :
    ∀ (calls : List (String × Nat)) (s : IndState) (b0 : Nat),
    lookupIter pid s.iters = some (id, b0) →
    ∃ b1, lookupIter pid (indRun InnerKind.plain calls s).iters = some (id, b1) := by
  intro calls
  induction calls with
  | nil => intro s b0 h; exact ⟨b0, h⟩
  | cons call calls ih =>
    intro s b0 h
    obtain ⟨q, b⟩ := call
    show ∃ b1,
      lookupIter pid (indRun InnerKind.plain calls (indSample InnerKind.plain q b s).1).iters =
        some (id, b1)
    cases hq : lookupIter q s.iters with
    | none =>
      have hl : lookupIter pid ((indSample InnerKind.plain q b s).1).iters =
          some (id, b0) := by
        simp only [indSample, hq]
        exact lookupIter_append_some _ h
      exact ih _ _ hl
    | some r =>
      obtain ⟨rid, rb⟩ := r
      obtain ⟨b1, hb1⟩ := lookupIter_retune_pres q b h
      have hl : lookupIter pid ((indSample InnerKind.plain q b s).1).iters =
          some (id, b1) := by
        simp only [indSample, hq]
        exact hb1
      exact ih _ _ hl

/-- Claim C8: isolator sharing and pass-through.  When the wrapped
capability is a nested isolator or a transport-wrapping type, sample is
passed straight through and the isolator state is untouched.  Otherwise
the first sample call for a fingerprint creates a cursor from the wrapped
capability and remembers it under that fingerprint; every later sample
call for the same fingerprint returns the very same cursor with its batch
hint re-tuned to the new value, and the remembered cursor identity
survives any sequence of further sample calls. -/
theorem c8_isolator_sharing :
    (∀ (pid : String) (b : Nat) (s : IndState),
      indSample InnerKind.isolator pid b s = (s, IndOut.passed pid b) ∧
      indSample InnerKind.transport pid b s = (s, IndOut.passed pid b)) ∧
    (∀ (pid : String) (b : Nat) (s : IndState), lookupIter pid s.iters = none →
      indSample InnerKind.plain pid b s =
        ({ created := s.created + 1, iters := s.iters ++ [(pid, s.created, b)] },
         IndOut.shared s.created b) ∧
      lookupIter pid ((indSample InnerKind.plain pid b s).1).iters =
        some (s.created, b)) ∧
    (∀ (pid : String) (b' : Nat) (s : IndState) (id b0 : Nat),
      lookupIter pid s.iters = some (id, b0) →
      (indSample InnerKind.plain pid b' s).2 = IndOut.shared id b' ∧
      lookupIter pid ((indSample InnerKind.plain pid b' s).1).iters = some (id, b')) ∧
    (∀ (calls : List (String × Nat)) (s : IndState) (pid : String) (id b0 : Nat),
      lookupIter pid s.iters = some (id, b0) →
      ∃ b1, lookupIter pid (indRun InnerKind.plain calls s).iters = some (id, b1)) := by
  refine ⟨fun pid b s => ⟨rfl, rfl⟩, ?_, ?_, ?_⟩
  · intro pid b s h
    constructor
    · simp only [indSample, h]
    · simp only [indSample, h]
      exact lookupIter_append_self _ _ h
  · intro pid b' s id b0 h
    constructor
    · simp only [indSample, h]
    · simp only [indSample, h]
      exact lookupIter_retune_self b' h
  · intro calls s pid id b0 h
    exact indRun_preserves calls s b0 h

/-- Witness for C8: re-tuning the remembered cursor of an isolator that
already holds one cursor. -/
theorem c8_witness :
    (indSample InnerKind.plain "p" 2 { created := 1, iters := [("p", 0, 1)] }).2 =
      IndOut.shared 0 2 ∧
    lookupIter "p"
        ((indSample InnerKind.plain "p" 2 { created := 1, iters := [("p", 0, 1)] }).1).iters =
      some (0, 2) :=
  c8_isolator_sharing.2.2.1 "p" 2 { created := 1, iters := [("p", 0, 1)] } 0 1 rfl

/-! ## Partition naming -/

theorem strAppend_assoc (a b c : String) : a ++ b ++ c = a ++ (b ++ c) := by
  rcases a with ⟨la⟩
  rcases b with ⟨lb⟩
  rcases c with ⟨lc⟩
  show String.mk (la ++ lb ++ lc) = String.mk (la ++ (lb ++ lc))
  rw [List.append_assoc]

/-- Claim C9: temperature-trimmed partition naming.  The trimmed
temperature of 0.700 is "0.7" and of 1.000 is "1"; for every cache root,
alias and prompt the Persistent cache's partition directory is
root/alias_t/fingerprint with t the trimmed temperature; and the
fingerprint really is the lowercase-hex SHA-256 digest of the prompt's
UTF-8 bytes, checked here against the published SHA-256 test vectors for
"abc" and for the empty string. -/
theorem c9_partition_naming :
    trimTemp 700 = "0.7" ∧ trimTemp 1000 = "1" ∧
    (∀ root aliasName prompt : String,
      promptDirStr root aliasName 700 (prompt_id prompt) =
        root ++ "/" ++ (aliasName ++ "_0.7") ++ "/" ++ prompt_id prompt ∧
      promptDirStr root aliasName 1000 (prompt_id prompt) =
        root ++ "/" ++ (aliasName ++ "_1") ++ "/" ++ prompt_id prompt) ∧
    prompt_id "abc" =
      "ba7816bf8f01cfea414140de5dae2223b00361a396177a9cb410ff61f20015ad" ∧
    prompt_id "" =
      "e3b0c44298fc1c149afbf4c8996fb92427ae41e4649b934ca495991b7852b855" := by
  refine ⟨by decide, by decide, ?_, ?_, ?_⟩
  · intro root aliasName prompt
    constructor
    · unfold promptDirStr
      have h1 : trimTemp 700 = "0.7" := by decide
      have h2 : ("_" : String) ++ "0.7" = "_0.7" := by decide
      rw [h1, strAppend_assoc aliasName "_" "0.7", h2]
    · unfold promptDirStr
      have h1 : trimTemp 1000 = "1" := by decide
      have h2 : ("_" : String) ++ "1" = "_1" := by decide
      rw [h1, strAppend_assoc aliasName "_" "1", h2]
  · set_option maxRecDepth 20000 in decide
  · set_option maxRecDepth 20000 in decide

end Mnimi
